import Mathlib

/-! # Domain verification and billing lifecycle (nezha_domains)

A shallow embedding of `model/domain.go`, `service/singleton/domain.go` and
`cmd/dashboard/controller/domain.go`, with the library functions they call.

Conventions of the embedding:

* A Go `string` is a `String`. The strings the code inspects byte by byte are the end dates,
  which come out of the JSON decoder and are valid UTF-8; `time.Parse` accepts ASCII only, so
  reading characters instead of bytes accepts the same strings.
* A `time.Time` is an instant with the zone offset in effect at it. `time.Parse` attaches a
  fixed zone to a parsed offset unless the offset is the one of the local zone at that
  instant; the local zone of the process is a parameter `loc`, and `usesLocal` tells which
  of the two a parsed end date gets.
* A `datatypes.JSON` is `nil`, bytes that are no JSON document, or the JSON value the bytes
  spell; `json.Marshal` produces the value it spells.
* The table `domains` is a list of records; `DB.Save` replaces the row with the primary key
  of the record and stamps its `UpdatedAt`, or fails and leaves the table as it is.
* float64 arithmetic is exact arithmetic on rationals followed by rounding to 53 bits.
-/

set_option linter.dupNamespace false

namespace Nezha

/-! ## The parts of Go's `time` package the repository calls -/

/-- Gregorian leap-year rule (`time.isLeap`). -/
def isLeap (year : Int) : Bool :=
  year % 4 == 0 && (year % 100 != 0 || year % 400 == 0)

/-- Days before the end of month `m` in a non-leap year; `daysBefore 0 = 0`
(the table `time.daysBefore`). -/
def daysBefore : Nat → Int
  | 0 => 0
  | 1 => 31
  | 2 => 59
  | 3 => 90
  | 4 => 120
  | 5 => 151
  | 6 => 181
  | 7 => 212
  | 8 => 243
  | 9 => 273
  | 10 => 304
  | 11 => 334
  | _ => 365

/-- Length of month `m` (1..12) of `year` (`time.daysIn`). -/
def daysIn (m : Nat) (year : Int) : Int :=
  if m = 2 ∧ isLeap year = true then 29 else daysBefore m - daysBefore (m - 1)

/-- Day number of 1 January of `year`, counted from 1970-01-01 (proleptic Gregorian). -/
def daysSinceEpoch (year : Int) : Int :=
  365 * (year - 1970) + (year - 1) / 4 - (year - 1) / 100 + (year - 1) / 400 - 477

/-- Day number of a calendar date whose month is in 1..12; the day of the month may
overflow the month, as in `time.Date`. -/
def dateToDays (year : Int) (month : Nat) (day : Int) : Int :=
  daysSinceEpoch year + daysBefore (month - 1)
    + (if isLeap year = true ∧ 3 ≤ month then 1 else 0) + (day - 1)

/-- Year and zero-based day of the year of a day number: the 400/100/4/1-year cycle
computation of `time.absDate`, with the cycles counted from 1 January of year 1. -/
def absYear (days : Int) : Int × Int :=
  let d := days + 719162
  let n400 := d / 146097
  let d := d - 146097 * n400
  let n := d / 36524
  let n100 := n - n / 4
  let d := d - 36524 * n100
  let n4 := d / 1461
  let d := d - 1461 * n4
  let n := d / 365
  let n1 := n - n / 4
  let d := d - 365 * n1
  (1 + 400 * n400 + 100 * n100 + 4 * n4 + n1, d)

/-- Month and day of the month of a zero-based day of the year (second half of
`time.absDate`). -/
def monthDay (leap : Bool) (yday : Int) : Nat × Int :=
  if leap = true ∧ yday = 59 then (2, 29)
  else
    let day := if leap = true ∧ yday > 59 then yday - 1 else yday
    let m := (day / 31).toNat
    let e := daysBefore (m + 1)
    if day ≥ e then (m + 2, day - e + 1) else (m + 1, day - daysBefore m + 1)

/-- The calendar date (year, month, day) of a day number. -/
def absDate (days : Int) : Int × Nat × Int :=
  let yd := absYear days
  let md := monthDay (isLeap yd.1) yd.2
  (yd.1, md.1, md.2)

/-- A `time.Time` without monotonic reading: an instant (seconds and nanoseconds since the
Unix epoch) and the offset, in seconds east of UTC, of the fixed zone it is shown in. -/
structure Time where
  unix : Int
  nsec : Int
  offset : Int
  deriving DecidableEq, Repr

/-- Seconds of the wall clock of `t` in its own zone, counted from the epoch. -/
def Time.abs (t : Time) : Int := t.unix + t.offset

def Time.days (t : Time) : Int := t.abs / 86400

def Time.year (t : Time) : Int := (absDate t.days).1

def Time.month (t : Time) : Nat := (absDate t.days).2.1

def Time.day (t : Time) : Int := (absDate t.days).2.2

def Time.hour (t : Time) : Int := t.abs % 86400 / 3600

def Time.minute (t : Time) : Int := t.abs % 3600 / 60

def Time.second (t : Time) : Int := t.abs % 60

/-- The carry step `time.norm`: `hi, lo` with `lo` brought into `[0, base)`. -/
def norm (hi lo base : Int) : Int × Int := (hi + lo / base, lo % base)

/-- Model of `time.Date` for a fixed-offset location. -/
def Date (year month day hour min sec nsec offset : Int) : Time :=
  let ym := norm year (month - 1) 12
  let sn := norm sec nsec 1000000000
  let ms := norm min sn.1 60
  let hm := norm hour ms.1 60
  let dh := norm day hm.1 24
  let d := dateToDays ym.1 (ym.2 + 1).toNat dh.1
  { unix := d * 86400 + (dh.2 * 3600 + hm.2 * 60 + ms.2) - offset, nsec := sn.2, offset := offset }

/-- Model of `Time.AddDate`. -/
def Time.AddDate (t : Time) (years months days : Int) : Time :=
  Date (t.year + years) (t.month + months) (t.day + days) t.hour t.minute t.second t.nsec
    t.offset

/-- A `*time.Location` as `time.Date` and `time.Parse` use it: for an instant, the offset in
effect and the start and end of the period in which that offset is in effect. -/
structure Location where
  lookup : Int → Int × Int × Int

/-- The location UTC. -/
def Location.utc : Location := ⟨fun _ => (0, -9223372036854775808, 9223372036854775807)⟩

/-- Model of `Time.AddDate` on a time of a given location of the process. For a time in a
fixed zone this is `Time.AddDate`. For a time in `time.Local` (`inLocal`), `time.Date`
looks up the offset for the new wall clock, and again when the first guess falls outside
the period of the offset it found; the offset shown is the one in effect at the result. -/
def Time.AddDateIn (t : Time) (loc : Location) (inLocal : Bool) (years months days : Int) :
    Time :=
  if inLocal = true then
    let wall := Date (t.year + years) (t.month + months) (t.day + days) t.hour t.minute
      t.second t.nsec 0
    let z := loc.lookup wall.unix
    let offset :=
      if z.1 ≠ 0 then
        if wall.unix - z.1 < z.2.1 ∨ wall.unix - z.1 ≥ z.2.2 then
          (loc.lookup (wall.unix - z.1)).1
        else z.1
      else 0
    { unix := wall.unix - offset, nsec := wall.nsec,
      offset := (loc.lookup (wall.unix - offset)).1 }
  else t.AddDate years months days

/-- Model of `Time.After`. -/
def Time.After (t u : Time) : Bool :=
  t.unix > u.unix || (t.unix == u.unix && t.nsec > u.nsec)

/-- Decimal digit `n % 10` as a character. -/
def digitChar (n : Nat) : Char := Char.ofNat (48 + n % 10)

/-- Decimal digits of `n`, most significant first (`fuel` bounds the number of digits). -/
def decimal : Nat → Nat → List Char
  | 0, _ => []
  | fuel + 1, n => if n < 10 then [digitChar n] else decimal fuel (n / 10) ++ [digitChar n]

/-- Model of `time.appendInt`: sign, then the decimal digits zero-padded to `width`. -/
def appendInt (x : Int) (width : Nat) : List Char :=
  let ds := decimal (x.natAbs + 1) x.natAbs
  (if x < 0 then ['-'] else []) ++ List.replicate (width - ds.length) '0' ++ ds

/-- The zone suffix of `appendFormatRFC3339`: `Z` for offset zero, otherwise the sign and
the offset in hours and minutes. -/
def zoneChars (offset : Int) : List Char :=
  if offset = 0 then ['Z']
  else
    let zone := offset.tdiv 60
    (if zone < 0 then ['-'] else ['+'])
      ++ appendInt ((if zone < 0 then -zone else zone).tdiv 60) 2 ++ [':']
      ++ appendInt ((if zone < 0 then -zone else zone).tmod 60) 2

/-- Model of `Time.Format(time.RFC3339)` (`appendFormatRFC3339` without nanoseconds). -/
def formatRFC3339 (t : Time) : List Char :=
  appendInt t.year 4 ++ ['-'] ++ appendInt t.month 2 ++ ['-'] ++ appendInt t.day 2 ++ ['T']
    ++ appendInt t.hour 2 ++ [':'] ++ appendInt t.minute 2 ++ [':'] ++ appendInt t.second 2
    ++ zoneChars t.offset

/-- Whether `c` is an ASCII decimal digit. -/
def isDig (c : Char) : Bool := 48 ≤ c.toNat && c.toNat ≤ 57

/-- Value of a decimal digit character. -/
def digitVal (c : Char) : Int := (c.toNat : Int) - 48

/-- Model of `time.getnum`: one or two leading digits; exactly two when `fixed`. -/
def getnum : List Char → Bool → Option (Int × List Char)
  | [], _ => none
  | [c0], fixed =>
    if isDig c0 = true then (if fixed = true then none else some (digitVal c0, [])) else none
  | c0 :: c1 :: rest, fixed =>
    if isDig c0 = true then
      if isDig c1 = true then some (digitVal c0 * 10 + digitVal c1, rest)
      else if fixed = true then none else some (digitVal c0, c1 :: rest)
    else none

/-- The `stdLongYear` element: exactly four digits. -/
def getYear : List Char → Option (Int × List Char)
  | c0 :: c1 :: c2 :: c3 :: rest =>
    if isDig c0 = true ∧ isDig c1 = true ∧ isDig c2 = true ∧ isDig c3 = true then
      some (((digitVal c0 * 10 + digitVal c1) * 10 + digitVal c2) * 10 + digitVal c3, rest)
    else none
  | _ => none

/-- Model of `time.skip` for a one-character literal prefix. -/
def skip (c : Char) : List Char → Option (List Char)
  | [] => none
  | x :: rest => if x = c then some rest else none

/-- The digits at the front of a list, and what follows them. -/
def spanDigits : List Char → List Char × List Char
  | [] => ([], [])
  | c :: rest =>
    if isDig c = true then ((c :: (spanDigits rest).1), (spanDigits rest).2) else ([], c :: rest)

/-- Value of a list of decimal digits, given the value of the digits read so far. -/
def digitsVal : Int → List Char → Int
  | acc, [] => acc
  | acc, c :: rest => digitsVal (acc * 10 + digitVal c) rest

/-- Model of `time.parseNanoseconds` on the fractional digits: the first nine digits, scaled
to nanoseconds. -/
def parseNanoseconds (digits : List Char) : Int :=
  let ds := digits.take 9
  digitsVal 0 ds * 10 ^ (9 - ds.length)

/-- Fractional second that may follow the seconds although the layout has none: a period or
a comma followed by at least one digit. -/
def getFrac : List Char → Int × List Char
  | sep :: c :: rest =>
    if (sep = '.' ∨ sep = ',') ∧ isDig c = true then
      (parseNanoseconds (c :: (spanDigits rest).1), (spanDigits rest).2)
    else (0, sep :: c :: rest)
  | v => (0, v)

/-- The `Z07:00` element: `Z`, or a sign, two digits, a colon and two digits. The range test
of `time.Parse` lets an hour of 24 and a minute of 60 pass. The result is the offset in
seconds. -/
def getZone : List Char → Option (Int × List Char)
  | 'Z' :: rest => some (0, rest)
  | sg :: h0 :: h1 :: c :: m0 :: m1 :: rest =>
    if c = ':' ∧ isDig h0 = true ∧ isDig h1 = true ∧ isDig m0 = true ∧ isDig m1 = true then
      let hr := digitVal h0 * 10 + digitVal h1
      let mm := digitVal m0 * 10 + digitVal m1
      if hr > 24 ∨ mm > 60 then none
      else if sg = '+' then some ((hr * 60 + mm) * 60, rest)
      else if sg = '-' then some (-((hr * 60 + mm) * 60), rest)
      else none
    else none
  | _ => none

/-- The date part `2006-01-02T` of the layout: year, month and day, and the rest. The day is
any two-digit number here; it is checked against the month at the end of the parse. -/
def getDate (s : List Char) : Option ((Int × Int × Int) × List Char) :=
  match getYear s with
  | none => none
  | some (year, v) =>
    match skip '-' v with
    | none => none
    | some v =>
      match getnum v true with
      | none => none
      | some (month, v) =>
        if month ≤ 0 ∨ 12 < month then none
        else
          match skip '-' v with
          | none => none
          | some v =>
            match getnum v true with
            | none => none
            | some (day, v) =>
              match skip 'T' v with
              | none => none
              | some v => some ((year, month, day), v)

/-- The clock part `15:04:05` of the layout: hour (one or two digits), minute and second,
and the rest. -/
def getClock (s : List Char) : Option ((Int × Int × Int) × List Char) :=
  match getnum s false with
  | none => none
  | some (hour, v) =>
    if 24 ≤ hour then none
    else
      match skip ':' v with
      | none => none
      | some v =>
        match getnum v true with
        | none => none
        | some (min, v) =>
          if 60 ≤ min then none
          else
            match skip ':' v with
            | none => none
            | some v =>
              match getnum v true with
              | none => none
              | some (sec, v) => if 60 ≤ sec then none else some ((hour, min, sec), v)

/-- Model of `time.Parse(time.RFC3339, s)`; `none` stands for any parse error. This is the
layout-driven parser: its fast path for RFC3339 accepts some of the same strings with the same
result. It takes an hour of one digit, a fractional second after a period or a comma, and a
zone offset of up to 24:60. -/
def parseChars (s : List Char) : Option Time :=
  match getDate s with
  | none => none
  | some ((year, month, day), v) =>
    match getClock v with
    | none => none
    | some ((hour, min, sec), v) =>
      match getZone (getFrac v).2 with
      | none => none
      | some (zoneOffset, rest) =>
        if rest ≠ [] then none
        else if day < 1 ∨ day > daysIn month.toNat year then none
        else
          let t := Date year month day hour min sec (getFrac v).1 0
          some { unix := t.unix - zoneOffset, nsec := t.nsec, offset := zoneOffset }

def parseRFC3339 (s : String) : Option Time := parseChars s.toList

/-- Whether `time.Parse` puts the parsed time `t` of the text `s` in `time.Local` rather
than in a fixed zone: the text has a numeric offset (it does not end in `Z`), and that
offset is the one in effect in the local zone `loc` at the parsed instant. -/
def usesLocal (loc : Location) (s : String) (t : Time) : Bool :=
  decide (s.toList.getLast? ≠ some 'Z') && decide ((loc.lookup t.unix).1 = t.offset)

def Time.Format (t : Time) : String := String.mk (formatRFC3339 t)

/-- Model of `Time.Sub`: the difference in nanoseconds as a `time.Duration`, an int64 that
saturates at its bounds. -/
def Time.Sub (t u : Time) : Int :=
  let d := (t.unix - u.unix) * 1000000000 + (t.nsec - u.nsec)
  if d < -9223372036854775808 then -9223372036854775808
  else if d > 9223372036854775807 then 9223372036854775807
  else d

/-! ## float64 arithmetic, as far as `Duration.Hours` and the controller use it -/

/-- Rounding of a rational to the nearest integer, ties to the even one. -/
def roundEven (q : ℚ) : Int :=
  if q - ⌊q⌋ < 1 / 2 then ⌊q⌋
  else if 1 / 2 < q - ⌊q⌋ then ⌊q⌋ + 1
  else if ⌊q⌋ % 2 = 0 then ⌊q⌋ else ⌊q⌋ + 1

/-- Rounding of a positive rational to 53 significant bits, to nearest, ties to even. -/
def roundPos (x : ℚ) : ℚ :=
  roundEven (x / 2 ^ (Int.log 2 x - 52)) * 2 ^ (Int.log 2 x - 52)

/-- The float64 value nearest to a rational (within the exponent range of float64): the
result of one float64 operation whose exact result is `x`. -/
def float64 (x : ℚ) : ℚ :=
  if 0 < x then roundPos x else if x < 0 then -roundPos (-x) else 0

/-- Model of `Duration.Hours` on a duration of `d` nanoseconds. -/
def Hours (d : Int) : ℚ :=
  float64 (float64 ((d.tdiv 3600000000000 : Int) : ℚ)
    + float64 (float64 ((d.tmod 3600000000000 : Int) : ℚ) / 3600000000000))

/-- Conversion `int(x)` of a float64 within the range of `int`: truncation toward zero. -/
def truncToInt (x : ℚ) : Int := if 0 ≤ x then ⌊x⌋ else ⌈x⌉

/-- The expression `int(d.Hours() / 24)`. -/
def wholeDays (d : Int) : Int := truncToInt (float64 (Hours d / 24))


/-! ## The parts of `encoding/json` the repository calls -/

/-- A JSON value. Strings are already unescaped; a number keeps its literal. -/
inductive JSONValue where
  | null
  | bool (b : Bool)
  | number (literal : String)
  | string (s : String)
  | array (items : List JSONValue)
  | object (members : List (String × JSONValue))

/-- A non-nil `datatypes.JSON` byte slice, as `encoding/json` reads it: bytes that are not a
JSON document, or the JSON value they spell. -/
inductive JSON where
  | invalid
  | value (v : JSONValue)

/-- Case folding of object keys (`foldRune` of `encoding/json`), restricted to what matters
when a key is compared with an ASCII field name: lower-case ASCII letters go to upper case,
and the two non-ASCII runes whose fold orbit contains an ASCII letter (U+017F, long s, and
U+212A, the Kelvin sign) go to that letter. -/
def foldRune (c : Char) : Char :=
  if 97 ≤ c.toNat ∧ c.toNat ≤ 122 then Char.ofNat (c.toNat - 32)
  else if c.toNat = 0x17F then 'S'
  else if c.toNat = 0x212A then 'K'
  else c

def foldName (s : String) : List Char := s.toList.map foldRune

/-! ## model/domain.go -/

/-- `model.BillingDataMod`. -/
structure BillingDataMod where
  Registrar : String
  RegisteredDate : String
  EndDate : String
  RenewalPrice : String
  AutoRenewal : String
  Notes : String
  Cycle : String
  Amount : String
  deriving DecidableEq, Repr

/-- The zero value of `BillingDataMod` (`var billing model.BillingDataMod`). -/
def BillingDataMod.zero : BillingDataMod := ⟨"", "", "", "", "", "", "", ""⟩

/-- The fields of `BillingDataMod`, by their JSON tags. -/
inductive Field where
  | registrar | registeredDate | endDate | renewalPrice | autoRenewal | notes | cycle | amount
  deriving DecidableEq, Repr

def Field.tag : Field → String
  | .registrar => "registrar"
  | .registeredDate => "registeredDate"
  | .endDate => "endDate"
  | .renewalPrice => "renewalPrice"
  | .autoRenewal => "autoRenewal"
  | .notes => "notes"
  | .cycle => "cycle"
  | .amount => "amount"

def Field.all : List Field :=
  [.registrar, .registeredDate, .endDate, .renewalPrice, .autoRenewal, .notes, .cycle, .amount]

/-- The struct field an object key is decoded into: the field whose tag equals the key up to
case folding, if there is one. -/
def fieldOf (key : String) : Option Field :=
  Field.all.find? fun f => decide (foldName f.tag = foldName key)

def BillingDataMod.get (b : BillingDataMod) : Field → String
  | .registrar => b.Registrar
  | .registeredDate => b.RegisteredDate
  | .endDate => b.EndDate
  | .renewalPrice => b.RenewalPrice
  | .autoRenewal => b.AutoRenewal
  | .notes => b.Notes
  | .cycle => b.Cycle
  | .amount => b.Amount

def BillingDataMod.set (b : BillingDataMod) (f : Field) (s : String) : BillingDataMod :=
  match f with
  | .registrar => { b with Registrar := s }
  | .registeredDate => { b with RegisteredDate := s }
  | .endDate => { b with EndDate := s }
  | .renewalPrice => { b with RenewalPrice := s }
  | .autoRenewal => { b with AutoRenewal := s }
  | .notes => { b with Notes := s }
  | .cycle => { b with Cycle := s }
  | .amount => { b with Amount := s }

/-- Decoding of the members of a JSON object into a `BillingDataMod`, in order: a key that
matches no field is skipped with its value, a string sets the field, `null` leaves it, and
any other value for a known field is an `UnmarshalTypeError`. -/
def decodeMembers : List (String × JSONValue) → BillingDataMod → Option BillingDataMod
  | [], b => some b
  | (key, v) :: rest, b =>
    match fieldOf key with
    | none => decodeMembers rest b
    | some f =>
      match v with
      | .string s => decodeMembers rest (b.set f s)
      | .null => decodeMembers rest b
      | _ => none

/-- Model of `json.Unmarshal(data, &billing)` for a zero `billing`; `none` stands for a
non-nil error. -/
def Unmarshal : JSON → Option BillingDataMod
  | .invalid => none
  | .value .null => some BillingDataMod.zero
  | .value (.object members) => decodeMembers members BillingDataMod.zero
  | .value _ => none

/-- Model of `json.Marshal(billing)`: an object with the eight tagged fields, in the order
of the struct. -/
def Marshal (b : BillingDataMod) : JSON :=
  .value (.object (Field.all.map fun f => (f.tag, .string (b.get f))))

/-- `model.Domain`. A nil `BillingData` is `none`. No function of the repository assigns
`CreatedAt` or `UpdatedAt`; the store stamps `UpdatedAt` on every `DB.Save`. -/
structure Domain where
  ID : Nat
  Domain : String
  Status : String
  VerifyToken : String
  IsPublic : Bool
  BillingData : Option JSON
  CreatedAt : Time
  UpdatedAt : Time

/-- `model.DomainUpdateRequest`. -/
structure DomainUpdateRequest where
  IsPublic : Bool
  BillingData : Option JSON

/-! ## service/singleton/domain.go -/

/-- The `domains` table behind the global `DB`. -/
abbrev Store := List Domain

/-- The errors the service functions return. -/
inductive Error where
  | recordNotFound
  | dnsLookupFailed
  | saveFailed
  deriving DecidableEq, Repr

/-- `GetDomains`: every record, or for scope `public` the verified or expired public ones. -/
def GetDomains (db : Store) (scope : String) : List Domain :=
  if scope = "public" then
    db.filter fun d => (d.Status = "verified" ∨ d.Status = "expired") ∧ d.IsPublic = true
  else db

/-- `GetDomainByID`: the first record with the given primary key. -/
def GetDomainByID (db : Store) (id : Nat) : Except Error Domain :=
  match db.find? fun d => d.ID = id with
  | some d => .ok d
  | none => .error .recordNotFound

/-- Effect of a successful `DB.Save(domain)` on the table: the row with the primary key of
`domain` becomes `domain`. -/
def Store.save (db : Store) (domain : Domain) : Store :=
  db.map fun d => if d.ID = domain.ID then domain else d

/-- What `net.LookupTXT` can fail with: a `*net.DNSError` with its `IsNotFound` flag, or an
error of another type. -/
inductive LookupError where
  | dns (isNotFound : Bool)
  | other
  deriving DecidableEq, Repr

/-- The outside world of a service call: the DNS resolver, whether the next `DB.Save`
succeeds, and the time the store stamps on the record it saves. -/
structure World where
  LookupTXT : String → Except LookupError (List String)
  saveOk : Bool
  savedAt : Time

/-- What a service call leaves behind: the table and the names `net.LookupTXT` was asked
for. -/
structure Effects where
  db : Store
  lookups : List String

/-- The record as `DB.Save` writes it: the store sets `UpdatedAt` to its own clock. -/
def World.stamp (w : World) (domain : Domain) : Domain := { domain with UpdatedAt := w.savedAt }

/-- `DB.Save(domain).Error` together with its effect on the table. -/
def World.Save (w : World) (db : Store) (domain : Domain) : Option Error × Store :=
  if w.saveOk = true then (none, db.save (w.stamp domain)) else (some .saveFailed, db)

/-- `VerifyDomain`: the two results and the effects. -/
def VerifyDomain (w : World) (db : Store) (id : Nat) : (Bool × Option Error) × Effects :=
  match GetDomainByID db id with
  | .error err => ((false, some err), ⟨db, []⟩)
  | .ok domain =>
    if domain.Status = "verified" then ((true, none), ⟨db, []⟩)
    else
      match w.LookupTXT domain.Domain with
      | .error (.dns true) => ((false, none), ⟨db, [domain.Domain]⟩)
      | .error _ => ((false, some .dnsLookupFailed), ⟨db, [domain.Domain]⟩)
      | .ok txtRecords =>
        if txtRecords.any (fun record => decide (record = domain.VerifyToken)) = true then
          let saved := w.Save db { domain with Status := "verified" }
          ((true, saved.1), ⟨saved.2, [domain.Domain]⟩)
        else ((false, none), ⟨db, [domain.Domain]⟩)

/-- `UpdateDomainConfig`. -/
def UpdateDomainConfig (w : World) (db : Store) (id : Nat) (billingData : Option JSON) :
    Except Error Domain × Store :=
  match GetDomainByID db id with
  | .error err => (.error err, db)
  | .ok domain =>
    let domain := { domain with BillingData := billingData }
    match w.Save db domain with
    | (some err, db) => (.error err, db)
    | (none, db) => (.ok (w.stamp domain), db)

/-- `UpdateDomain`. -/
def UpdateDomain (w : World) (db : Store) (id : Nat) (req : DomainUpdateRequest) :
    Except Error Domain × Store :=
  match GetDomainByID db id with
  | .error err => (.error err, db)
  | .ok domain =>
    let domain := { domain with IsPublic := req.IsPublic, BillingData := req.BillingData }
    match w.Save db domain with
    | (some err, db) => (.error err, db)
    | (none, db) => (.ok (w.stamp domain), db)

/-- `DeleteDomain`. -/
def DeleteDomain (db : Store) (id : Nat) : Store := db.filter fun d => d.ID ≠ id

/-- What one iteration of the loop of `CronJobForDomainStatus` does with the loaded record
`d`: `continue` or fall through without a write, or `DB.Save(&d)` with the modified copy. -/
inductive Step where
  | skip
  | save (d : Domain)

/-- The body of the loop of `CronJobForDomainStatus` for one loaded record, in a process
whose local zone is `loc`. -/
def cronStep (loc : Location) (now : Time) (d : Domain) : Step :=
  match d.BillingData with
  | none => .skip
  | some data =>
    match Unmarshal data with
    | none => .skip
    | some billing =>
      if billing.EndDate = "" then .skip
      else
        match parseRFC3339 billing.EndDate with
        | none => .skip
        | some endDate =>
          if now.After endDate = true then
            if billing.AutoRenewal = "1" then
              if billing.Cycle = "年" then
                let newEndDate :=
                  endDate.AddDateIn loc (usesLocal loc billing.EndDate endDate) 1 0 0
                .save { d with
                  BillingData := some (Marshal { billing with EndDate := newEndDate.Format }) }
              else if billing.Cycle = "月" then
                let newEndDate :=
                  endDate.AddDateIn loc (usesLocal loc billing.EndDate endDate) 0 1 0
                .save { d with
                  BillingData := some (Marshal { billing with EndDate := newEndDate.Format }) }
              else .skip
            else .save { d with Status := "expired" }
          else .skip

/-- The row of the record `d` after one run of `CronJobForDomainStatus` at `now` that loaded
the table: only records with status `verified` are loaded; a loaded record is replaced by
what the loop saves for it, stamped by the store, when the write succeeds, and stays as it
is when the loop saves nothing or the write fails (the error is logged). -/
def reconcile (loc : Location) (w : World) (now : Time) (d : Domain) : Domain :=
  if d.Status = "verified" then
    match cronStep loc now d with
    | .skip => d
    | .save d' => if w.saveOk = true then w.stamp d' else d
  else d

/-- `CronJobForDomainStatus` on the whole table, with `time.Now()` read once. When the query
for the verified records fails (`findOk` is false) the job returns without a write; `w id`
is the outside world at the write of the record with primary key `id`. -/
def CronJobForDomainStatus (loc : Location) (findOk : Bool) (w : Nat → World) (now : Time)
    (db : Store) : Store :=
  if findOk = true then db.map fun d => reconcile loc (w d.ID) now d else db

/-- The billing payload of a record as the reconciliation job decodes it. -/
def billingOf (d : Domain) : Option BillingDataMod := d.BillingData.bind Unmarshal

/-- The end date of a record as the reconciliation job reads it. -/
def endDateOf (d : Domain) : Option Time := (billingOf d).bind fun b => parseRFC3339 b.EndDate

/-- The members of a payload that is a JSON object. -/
def JSON.members : JSON → List (String × JSONValue)
  | .value (.object ms) => ms
  | _ => []

/-- The keys of the billing payload of a record. -/
def Domain.keys (d : Nezha.Domain) : List String :=
  match d.BillingData with
  | some data => data.members.map fun kv => kv.1
  | none => []

/-- The string that the members of a JSON object give the field `f`: the last string among
the values of the keys that match `f`, and `acc` when there is none. -/
def memberValue (f : Field) : List (String × JSONValue) → String → String
  | [], acc => acc
  | (key, .string s) :: rest, acc =>
    if fieldOf key = some f then memberValue f rest s else memberValue f rest acc
  | _ :: rest, acc => memberValue f rest acc

/-- The renewal offset of a cycle value: one year, one month, or not recognized. -/
def cycleOffset (cycle : String) : Option (Int × Int) :=
  if cycle = "年" then some (1, 0) else if cycle = "月" then some (0, 1) else none

/-- An operation of the service on the record with primary key `id`. -/
inductive Op where
  | verify (w : World) (id : Nat)
  | update (w : World) (id : Nat) (req : DomainUpdateRequest)
  | updateConfig (w : World) (id : Nat) (billingData : Option JSON)
  | cron (loc : Location) (findOk : Bool) (w : Nat → World) (now : Time)

/-- The table after an operation. -/
def Op.run (db : Store) : Op → Store
  | .verify w id => (VerifyDomain w db id).2.db
  | .update w id req => (UpdateDomain w db id req).2
  | .updateConfig w id billingData => (UpdateDomainConfig w db id billingData).2
  | .cron loc findOk w now => CronJobForDomainStatus loc findOk w now db


/-! ## cmd/dashboard/controller/domain.go -/

/-- `controller.DomainAPIResponse`: the record and the days left, nil when not computed. -/
structure DomainAPIResponse where
  Domain : Nezha.Domain
  ExpiresInDays : Option Int

/-- The body of the loop of `GetDomainList` for one record, with `now` the clock reading of
`time.Until`. -/
def apiResponse (now : Time) (d : Nezha.Domain) : DomainAPIResponse :=
  { Domain := d,
    ExpiresInDays :=
      match d.BillingData with
      | none => none
      | some data =>
        match Unmarshal data with
        | none => none
        | some billing =>
          if billing.EndDate = "" then none
          else
            match parseRFC3339 billing.EndDate with
            | none => none
            | some endDate => some (wholeDays (endDate.Sub now)) }

/-- `GetDomainList`; `clock i` is the clock reading while record `i` is processed. -/
def GetDomainList (clock : Nat → Time) (db : Store) (scope : String) :
    List DomainAPIResponse :=
  (GetDomains db scope).enum.map fun id => apiResponse (clock id.1) id.2

/-- The nanoseconds from `now` until `endDate`, exactly. -/
def nanosUntil (now endDate : Time) : Int :=
  (endDate.unix - now.unix) * 1000000000 + (endDate.nsec - now.nsec)

/-- In the words of the specification: the hours from `now` until `endDate`, exactly. -/
def hoursUntil (now endDate : Time) : ℚ := (nanosUntil now endDate : ℚ) / 3600000000000

/-- In the words of the specification: the floor of the hours until the end date, divided
by 24. -/
def specExpiresInDays (now endDate : Time) : Int := ⌊hoursUntil now endDate / 24⌋

/-! ## Concrete records, resolvers and clock readings -/

/-- A verified record with end date 2024-01-01 and no auto-renewal. -/
def expiringRecord : Domain :=
  { ID := 1, Domain := "example.com", Status := "verified", VerifyToken := "nezha-verify-00",
    IsPublic := true,
    BillingData := some (.value (.object [("endDate", .string "2024-01-01T00:00:00Z"),
      ("autoRenewal", .string "0"), ("registrar", .string "R")])),
    CreatedAt := ⟨1700000000, 0, 0⟩, UpdatedAt := ⟨1700000000, 0, 0⟩ }

/-- A verified record with end date 2024-01-01, auto-renewal set, and the cycle `weekly`. -/
def unknownCycleRecord : Domain :=
  { ID := 2, Domain := "example.org", Status := "verified", VerifyToken := "nezha-verify-01",
    IsPublic := false,
    BillingData := some (.value (.object [("endDate", .string "2024-01-01T00:00:00Z"),
      ("autoRenewal", .string "1"), ("cycle", .string "weekly")])),
    CreatedAt := ⟨1700000000, 0, 0⟩, UpdatedAt := ⟨1700000000, 0, 0⟩ }

/-- A pending record without billing payload. -/
def pendingRecord : Domain :=
  { ID := 7, Domain := "example.net", Status := "pending",
    VerifyToken := "nezha-verify-abc123", IsPublic := true, BillingData := none,
    CreatedAt := ⟨1700000000, 0, 0⟩, UpdatedAt := ⟨1700000000, 0, 0⟩ }

/-- A resolver that times out. -/
def timeoutWorld : World :=
  { LookupTXT := fun _ => .error (.dns false), saveOk := true, savedAt := ⟨1717200001, 0, 0⟩ }

/-- A resolver that returns the token of `pendingRecord` among other values. -/
def publishedWorld (saveOk : Bool) : World :=
  { LookupTXT := fun _ => .ok ["foo", "nezha-verify-abc123"], saveOk := saveOk,
    savedAt := ⟨1717200001, 0, 0⟩ }

/-- The clock reading 2024-06-01T00:00:00Z. -/
def june2024 : Time := ⟨1717200000, 0, 0⟩

/-- A verified record with the given members as billing payload. -/
def billedRecord (members : List (String × JSONValue)) : Domain :=
  { ID := 3, Domain := "example.io", Status := "verified", VerifyToken := "nezha-verify-02",
    IsPublic := true, BillingData := some (.value (.object members)),
    CreatedAt := ⟨1700000000, 0, 0⟩, UpdatedAt := ⟨1700000000, 0, 0⟩ }

/-- Overdue since January 2024, renewed yearly. -/
def renewingRecord : Domain :=
  billedRecord [("registrar", .string "R"), ("endDate", .string "2024-01-15T08:30:00+08:00"),
    ("autoRenewal", .string "1"), ("cycle", .string "年"), ("amount", .string "12.50")]

/-- Overdue for more than four years, renewed yearly. -/
def longOverdueRecord : Domain :=
  billedRecord [("endDate", .string "2020-01-01T00:00:00Z"), ("autoRenewal", .string "1"),
    ("cycle", .string "年")]

/-- A payload with a key that `BillingDataMod` has no field for. -/
def extraKeyRecord : Domain :=
  billedRecord [("endDate", .string "2024-01-01T00:00:00Z"), ("autoRenewal", .string "1"),
    ("cycle", .string "月"), ("registrarUrl", .string "https://r.example")]

/-- An end date one hour before `june2024`. -/
def hourAgoRecord : Domain :=
  billedRecord [("endDate", .string "2024-05-31T23:00:00Z")]

/-- An end date thirty days and a half after `june2024`. -/
def nextMonthRecord : Domain :=
  billedRecord [("endDate", .string "2024-07-01T12:00:00Z")]

/-- A clock reading with nanoseconds, shortly after `june2024`. -/
def june2024Nanos : Time := ⟨1717200000, 123456789, 0⟩

/-! ## Lemmas on the calendar -/

theorem roundEven_intCast (n : Int) : roundEven (n : ℚ) = n := by
  simp [roundEven]

theorem roundEven_bounds (q : ℚ) : ⌊q⌋ ≤ roundEven q ∧ roundEven q ≤ ⌊q⌋ + 1 := by
  unfold roundEven
  split
  · omega
  · split
    · omega
    · split <;> omega

theorem roundEven_mono {x y : ℚ} (h : x ≤ y) : roundEven x ≤ roundEven y := by
  have hf : ⌊x⌋ ≤ ⌊y⌋ := Int.floor_mono h
  have hbx := roundEven_bounds x
  have hby := roundEven_bounds y
  rcases lt_or_eq_of_le hf with hlt | heq
  · omega
  · rcases lt_trichotomy (x - ⌊x⌋) (1 / 2) with hx | hx | hx
    · have : roundEven x = ⌊x⌋ := by
        unfold roundEven
        rw [if_pos hx]
      omega
    · by_cases hy : y - ⌊y⌋ = 1 / 2
      · have hxy : x = y := by
          have : ((⌊x⌋ : Int) : ℚ) = ((⌊y⌋ : Int) : ℚ) := by rw [heq]
          linarith
        rw [hxy]
      · have hy' : 1 / 2 < y - ⌊y⌋ := by
          have : ((⌊x⌋ : Int) : ℚ) = ((⌊y⌋ : Int) : ℚ) := by rw [heq]
          rcases lt_or_gt_of_ne hy with h1 | h1
          · linarith
          · exact h1
        have : roundEven y = ⌊y⌋ + 1 := by
          unfold roundEven
          rw [if_neg (by linarith), if_pos hy']
        omega
    · have hy' : 1 / 2 < y - ⌊y⌋ := by
        have : ((⌊x⌋ : Int) : ℚ) = ((⌊y⌋ : Int) : ℚ) := by rw [heq]
        linarith
      have : roundEven y = ⌊y⌋ + 1 := by
        unfold roundEven
        rw [if_neg (by linarith), if_pos hy']
      omega

theorem roundPos_eq (x : ℚ) (e : Int) (he : Int.log 2 x = e) :
    roundPos x = roundEven (x / 2 ^ (e - 52)) * 2 ^ (e - 52) := by
  unfold roundPos
  rw [he]

theorem two_zpow_pos (e : Int) : (0 : ℚ) < 2 ^ e := by positivity

/-- A positive rational lies between the powers of two around it, and so does its float64
rounding. -/
theorem roundPos_bounds (x : ℚ) (hx : 0 < x) :
    (2 : ℚ) ^ Int.log 2 x ≤ roundPos x ∧ roundPos x ≤ 2 ^ (Int.log 2 x + 1) := by
  have h1 : ((2 : ℕ) : ℚ) ^ Int.log 2 x ≤ x := Int.zpow_log_le_self (by decide) hx
  have h2 : x < ((2 : ℕ) : ℚ) ^ (Int.log 2 x + 1) := Int.lt_zpow_succ_log_self (by decide) x
  simp only [Nat.cast_ofNat] at h1 h2
  have hu := two_zpow_pos (Int.log 2 x - 52)
  have e1 : (2 : ℚ) ^ Int.log 2 x = ((2 ^ 52 : Int) : ℚ) * 2 ^ (Int.log 2 x - 52) := by
    rw [zpow_sub₀ (by norm_num : (2 : ℚ) ≠ 0)]
    push_cast
    field_simp
    ring
  have e2 : (2 : ℚ) ^ (Int.log 2 x + 1) = ((2 ^ 53 : Int) : ℚ) * 2 ^ (Int.log 2 x - 52) := by
    rw [zpow_sub₀ (by norm_num : (2 : ℚ) ≠ 0), zpow_add₀ (by norm_num : (2 : ℚ) ≠ 0)]
    push_cast
    field_simp
    ring
  unfold roundPos
  constructor
  · rw [e1]
    apply mul_le_mul_of_nonneg_right _ (le_of_lt hu)
    have : ((2 ^ 52 : Int) : ℚ) ≤ x / 2 ^ (Int.log 2 x - 52) := by
      rw [le_div_iff₀ hu, ← e1]
      exact h1
    have := roundEven_mono this
    rw [roundEven_intCast] at this
    exact_mod_cast this
  · rw [e2]
    apply mul_le_mul_of_nonneg_right _ (le_of_lt hu)
    have : x / 2 ^ (Int.log 2 x - 52) ≤ ((2 ^ 53 : Int) : ℚ) := by
      rw [div_le_iff₀ hu, ← e2]
      exact le_of_lt h2
    have := roundEven_mono this
    rw [roundEven_intCast] at this
    exact_mod_cast this

theorem roundPos_pos (x : ℚ) (hx : 0 < x) : 0 < roundPos x :=
  lt_of_lt_of_le (two_zpow_pos _) (roundPos_bounds x hx).1

theorem roundPos_mono {x y : ℚ} (hx : 0 < x) (h : x ≤ y) : roundPos x ≤ roundPos y := by
  have hy : 0 < y := lt_of_lt_of_le hx h
  have hl : Int.log 2 x ≤ Int.log 2 y := Int.log_mono_right hx h
  rcases lt_or_eq_of_le hl with hlt | heq
  · calc roundPos x ≤ 2 ^ (Int.log 2 x + 1) := (roundPos_bounds x hx).2
      _ ≤ 2 ^ Int.log 2 y := zpow_le_zpow_right₀ (by norm_num) (by omega)
      _ ≤ roundPos y := (roundPos_bounds y hy).1
  · unfold roundPos
    rw [heq]
    have hu := two_zpow_pos (Int.log 2 y - 52)
    apply mul_le_mul_of_nonneg_right _ (le_of_lt hu)
    exact_mod_cast roundEven_mono (div_le_div_of_nonneg_right h (le_of_lt hu))

theorem float64_mono {x y : ℚ} (h : x ≤ y) : float64 x ≤ float64 y := by
  unfold float64
  by_cases hx : 0 < x
  · have hy : 0 < y := lt_of_lt_of_le hx h
    rw [if_pos hx, if_pos hy]
    exact roundPos_mono hx h
  · rw [if_neg hx]
    by_cases hx' : x < 0
    · rw [if_pos hx']
      have h1 := roundPos_pos (-x) (by linarith)
      by_cases hy : 0 < y
      · rw [if_pos hy]
        have := roundPos_pos y hy
        linarith
      · rw [if_neg hy]
        by_cases hy' : y < 0
        · rw [if_pos hy']
          have := roundPos_mono (by linarith : 0 < -y) (by linarith : -y ≤ -x)
          linarith
        · rw [if_neg hy']
          linarith
    · rw [if_neg hx']
      by_cases hy : 0 < y
      · rw [if_pos hy]
        exact le_of_lt (roundPos_pos y hy)
      · have : y = 0 := by linarith
        rw [if_neg hy, if_neg (by linarith)]

theorem float64_neg (x : ℚ) : float64 (-x) = -float64 x := by
  unfold float64
  by_cases hx : 0 < x
  · rw [if_pos hx, if_neg (by linarith), if_pos (by linarith), neg_neg]
  · by_cases hx' : x < 0
    · rw [if_neg hx, if_pos hx', if_pos (by linarith), neg_neg]
    · rw [if_neg hx, if_neg hx', if_neg (by linarith), if_neg (by linarith), neg_zero]

/-- A rational `m / 2 ^ j` with `m` below `2 ^ 53` is a float64 value. -/
theorem float64_dyadic (m j : Nat) (hm : m < 2 ^ 53) :
    float64 ((m : ℚ) / 2 ^ j) = (m : ℚ) / 2 ^ j := by
  rcases Nat.eq_zero_or_pos m with h0 | hpos
  · subst h0
    simp [float64]
  · have hx : (0 : ℚ) < (m : ℚ) / 2 ^ j := by positivity
    unfold float64
    rw [if_pos hx]
    have h1 : ((2 : ℕ) : ℚ) ^ Int.log 2 ((m : ℚ) / 2 ^ j) ≤ (m : ℚ) / 2 ^ j :=
      Int.zpow_log_le_self (by decide) hx
    simp only [Nat.cast_ofNat] at h1
    generalize he : Int.log 2 ((m : ℚ) / 2 ^ j) = e at h1
    rw [roundPos_eq _ e he]
    have hlt : (2 : ℚ) ^ e < 2 ^ ((53 : Int) - j) := by
      refine lt_of_le_of_lt h1 ?_
      rw [zpow_sub₀ (by norm_num : (2 : ℚ) ≠ 0), zpow_natCast]
      apply div_lt_div_of_pos_right _ (by positivity)
      have : ((2 : ℚ) ^ (53 : Int)) = ((2 ^ 53 : Nat) : ℚ) := by norm_num
      rw [this]
      exact_mod_cast hm
    have hej : e < 53 - j := (zpow_lt_zpow_iff_right₀ (by norm_num : (1 : ℚ) < 2)).1 hlt
    obtain ⟨n, hn⟩ : ∃ n : Nat, (n : Int) = 52 - e - j := ⟨(52 - e - j).toNat, by omega⟩
    have hu := two_zpow_pos (e - 52)
    have hq : (m : ℚ) / 2 ^ j / 2 ^ (e - 52) = (((m * 2 ^ n : Nat) : Int) : ℚ) := by
      have e52 : e - 52 = -((n : Int) + j) := by omega
      rw [e52, zpow_neg, zpow_add₀ (by norm_num : (2 : ℚ) ≠ 0), zpow_natCast, zpow_natCast]
      push_cast
      field_simp
      ring
    rw [hq, roundEven_intCast, ← hq]
    field_simp
    ring

theorem float64_natCast (m : Nat) (hm : m < 2 ^ 53) : float64 (m : ℚ) = m := by
  have := float64_dyadic m 0 hm
  simpa using this

/-- For a duration of at most the int64 maximum that does not end in the last 4096th of an
hour before a whole number of days, `int(d.Hours() / 24)` is the number of whole days. -/
theorem wholeDays_nonneg (d : Int) (h0 : 0 ≤ d) (hmax : d ≤ 9223372036854775808)
    (hb : d % 86400000000000 ≤ 86399121093750) : wholeDays d = d / 86400000000000 := by
  obtain ⟨h, hh⟩ : ∃ h : Nat, d / 3600000000000 = (h : Int) :=
    ⟨(d / 3600000000000).toNat, by omega⟩
  obtain ⟨r, hr⟩ : ∃ r : Nat, d % 3600000000000 = (r : Int) :=
    ⟨(d % 3600000000000).toNat, by omega⟩
  obtain ⟨q, hq⟩ : ∃ q : Nat, d / 86400000000000 = (q : Int) :=
    ⟨(d / 86400000000000).toNat, by omega⟩
  have hh22 : h < 4194304 := by omega
  have hr42 : r < 3600000000000 := by omega
  have hqh : q = h / 24 := by omega
  have hcase : h % 24 ≤ 22 ∨ 4096 * r ≤ 4095 * 3600000000000 := by omega
  unfold wholeDays Hours
  rw [Int.tdiv_eq_ediv h0 (by decide), Int.tmod_eq_emod h0 (by decide), hh, hr, hq]
  simp only [Int.cast_natCast]
  rw [float64_natCast h (by norm_num; omega), float64_natCast r (by norm_num; omega)]
  have hrq : (r : ℚ) < 3600000000000 := by exact_mod_cast hr42
  have hx1a : 0 ≤ float64 ((r : ℚ) / 3600000000000) := by
    have := float64_mono (show (0 : ℚ) ≤ (r : ℚ) / 3600000000000 by positivity)
    rwa [show float64 0 = 0 by simp [float64]] at this
  have hx1b : float64 ((r : ℚ) / 3600000000000) ≤ 1 := by
    have := float64_mono (show (r : ℚ) / 3600000000000 ≤ ((1 : Nat) : ℚ) by
      rw [div_le_iff₀ (by norm_num)]
      push_cast
      linarith)
    rwa [float64_natCast 1 (by norm_num)] at this
  have hx2a : (h : ℚ) ≤ float64 ((h : ℚ) + float64 ((r : ℚ) / 3600000000000)) := by
    have := float64_mono (show (h : ℚ) ≤ (h : ℚ) + float64 ((r : ℚ) / 3600000000000) by
      linarith)
    rwa [float64_natCast h (by norm_num; omega)] at this
  have hq24 : ((q : ℚ)) * 24 ≤ h := by
    have : q * 24 ≤ h := by omega
    exact_mod_cast this
  have hx3a : (q : ℚ) ≤ float64 (float64 ((h : ℚ) + float64 ((r : ℚ) / 3600000000000)) / 24) := by
    have := float64_mono (show (q : ℚ) ≤
        float64 ((h : ℚ) + float64 ((r : ℚ) / 3600000000000)) / 24 by
      rw [le_div_iff₀ (by norm_num)]
      linarith)
    rwa [float64_natCast q (by norm_num; omega)] at this
  have hx3b : float64 (float64 ((h : ℚ) + float64 ((r : ℚ) / 3600000000000)) / 24)
      < (q : ℚ) + 1 := by
    rcases hcase with hA | hB
    · have hx2b : float64 ((h : ℚ) + float64 ((r : ℚ) / 3600000000000)) ≤ (h : ℚ) + 1 := by
        have := float64_mono (show (h : ℚ) + float64 ((r : ℚ) / 3600000000000)
            ≤ ((h + 1 : Nat) : ℚ) by
          push_cast
          linarith)
        rw [float64_natCast (h + 1) (by norm_num; omega)] at this
        push_cast at this
        exact this
      have hh23 : (h : ℚ) + 1 ≤ (q : ℚ) * 24 + 23 := by
        have : h + 1 ≤ q * 24 + 23 := by omega
        exact_mod_cast this
      have := float64_mono (show
          float64 ((h : ℚ) + float64 ((r : ℚ) / 3600000000000)) / 24
            ≤ ((q * 32 + 31 : Nat) : ℚ) / 2 ^ 5 by
        rw [div_le_iff₀ (by norm_num)]
        push_cast
        linarith)
      rw [float64_dyadic (q * 32 + 31) 5 (by norm_num; omega)] at this
      refine lt_of_le_of_lt this ?_
      push_cast
      linarith
    · have hrB : (r : ℚ) / 3600000000000 ≤ ((4095 : Nat) : ℚ) / 2 ^ 12 := by
        rw [div_le_div_iff₀ (by norm_num) (by norm_num)]
        have : (r : ℚ) * 4096 ≤ 4095 * 3600000000000 := by
          have : r * 4096 ≤ 4095 * 3600000000000 := by omega
          exact_mod_cast this
        push_cast
        linarith
      have hx1c := float64_mono hrB
      rw [float64_dyadic 4095 12 (by norm_num)] at hx1c
      have hx2b : float64 ((h : ℚ) + float64 ((r : ℚ) / 3600000000000))
          ≤ ((h * 4096 + 4095 : Nat) : ℚ) / 2 ^ 12 := by
        have := float64_mono (show (h : ℚ) + float64 ((r : ℚ) / 3600000000000)
            ≤ ((h * 4096 + 4095 : Nat) : ℚ) / 2 ^ 12 by
          push_cast at hx1c ⊢
          linarith)
        rwa [float64_dyadic (h * 4096 + 4095) 12 (by norm_num; omega)] at this
      have hh23 : (h : ℚ) ≤ (q : ℚ) * 24 + 23 := by
        have : h ≤ q * 24 + 23 := by omega
        exact_mod_cast this
      have := float64_mono (show
          float64 ((h : ℚ) + float64 ((r : ℚ) / 3600000000000)) / 24
            ≤ ((q * 131072 + 131071 : Nat) : ℚ) / 2 ^ 17 by
        rw [div_le_iff₀ (by norm_num)]
        push_cast at hx2b ⊢
        linarith)
      rw [float64_dyadic (q * 131072 + 131071) 17 (by norm_num; omega)] at this
      refine lt_of_le_of_lt this ?_
      push_cast
      linarith
  unfold truncToInt
  rw [if_pos (le_trans (by positivity) hx3a)]
  rw [Int.floor_eq_iff]
  exact ⟨by exact_mod_cast hx3a, by exact_mod_cast hx3b⟩

theorem neg_tmod (a b : Int) : (-a).tmod b = -(a.tmod b) := by
  rw [Int.tmod_def, Int.tmod_def, Int.neg_tdiv]
  ring

theorem wholeDays_neg (d : Int) : wholeDays (-d) = -wholeDays d := by
  unfold wholeDays Hours
  rw [Int.neg_tdiv, neg_tmod]
  simp only [Int.cast_neg, float64_neg, neg_div, ← neg_add]
  generalize float64 (float64 (float64 ((d.tdiv 3600000000000 : Int) : ℚ)
    + float64 (float64 ((d.tmod 3600000000000 : Int) : ℚ) / 3600000000000)) / 24) = x
  unfold truncToInt
  rcases lt_trichotomy x 0 with hx | hx | hx
  · rw [if_pos (by linarith), if_neg (by linarith), Int.floor_neg]
  · subst hx
    simp
  · rw [if_neg (by linarith), if_pos (by linarith), Int.ceil_neg]

/-- The value of `int(d.Hours() / 24)`: the whole days of the duration, truncated toward
zero, for every int64 duration that is not within the last 4096th of an hour (0.88 s)
before a whole number of days. -/
theorem wholeDays_eq (d : Int) (hmin : -9223372036854775808 ≤ d)
    (hmax : d ≤ 9223372036854775807)
    (hb : (d.natAbs : Int) % 86400000000000 ≤ 86399121093750) :
    wholeDays d = d.tdiv 86400000000000 := by
  by_cases h0 : 0 ≤ d
  · rw [wholeDays_nonneg d h0 (by omega) (by omega), Int.tdiv_eq_ediv h0 (by decide)]
  · have hd : d = -(-d) := by omega
    rw [hd, wholeDays_neg, Int.neg_tdiv, wholeDays_nonneg (-d) (by omega) (by omega) (by omega),
      Int.tdiv_eq_ediv (by omega) (by decide)]

/-! ## Lemmas on the store -/

theorem find_map_keepID (db : Store) (f : Domain → Domain) (id : Nat)
    (hf : ∀ d, (f d).ID = d.ID) :
    (db.map f).find? (fun d => d.ID = id) = (db.find? (fun d => d.ID = id)).map f := by
  induction db with
  | nil => rfl
  | cons x xs ih =>
    by_cases h : x.ID = id
    · simp [List.find?_cons, hf, h]
    · simp only [List.map_cons, List.find?_cons, hf, h, decide_False]
      exact ih

theorem find_ID (db : Store) (id : Nat) (d : Domain)
    (h : db.find? (fun d => d.ID = id) = some d) : d.ID = id := by
  have := List.find?_some h
  simpa using this

theorem GetDomainByID_ok (db : Store) (id : Nat) (d : Domain) :
    GetDomainByID db id = .ok d ↔ db.find? (fun d => d.ID = id) = some d := by
  unfold GetDomainByID
  cases db.find? (fun d => d.ID = id) <;> simp

theorem GetDomainByID_save (db : Store) (id : Nat) (d x : Domain)
    (h : GetDomainByID db id = .ok d) :
    GetDomainByID (db.save x) id = .ok (if d.ID = x.ID then x else d) := by
  rw [GetDomainByID_ok] at h ⊢
  unfold Store.save
  rw [find_map_keepID _ _ _ (by intro d; by_cases hd : d.ID = x.ID <;> simp [hd]), h]
  rfl

theorem after_save (db : Store) (id : Nat) (d x d' : Domain)
    (hg : GetDomainByID db id = .ok d) (hg' : GetDomainByID (db.save x) id = .ok d') :
    d' = d ∨ (d' = x ∧ x.ID = id) := by
  rw [GetDomainByID_save db id d x hg] at hg'
  have hid : d.ID = id := find_ID db id d ((GetDomainByID_ok db id d).1 hg)
  by_cases h : d.ID = x.ID
  · rw [if_pos h] at hg'
    right
    exact ⟨by cases hg'; rfl, by rw [← h, hid]⟩
  · rw [if_neg h] at hg'
    left
    cases hg'
    rfl

/-! ## Lemmas on the reconciliation step -/

theorem parseRFC3339_empty : parseRFC3339 "" = none := by decide

theorem cronStep_cases (loc : Location) (now : Time) (d : Domain) :
    cronStep loc now d = .skip ∨ (∃ b, cronStep loc now d = .save { d with BillingData := some b })
      ∨ cronStep loc now d = .save { d with Status := "expired" } := by
  unfold cronStep
  repeat' split
  all_goals simp

/-- The step on a record whose payload decodes, with a parsable end date. -/
theorem cronStep_decoded (loc : Location) (now : Time) (d : Domain) (data : JSON) (billing : BillingDataMod)
    (endDate : Time) (hd : d.BillingData = some data) (hb : Unmarshal data = some billing)
    (hp : parseRFC3339 billing.EndDate = some endDate) :
    cronStep loc now d =
      if now.After endDate = true then
        if billing.AutoRenewal = "1" then
          if billing.Cycle = "年" then
            .save { d with BillingData := some (Marshal { billing with
              EndDate := (endDate.AddDateIn loc (usesLocal loc billing.EndDate endDate) 1 0 0).Format }) }
          else if billing.Cycle = "月" then
            .save { d with BillingData := some (Marshal { billing with
              EndDate := (endDate.AddDateIn loc (usesLocal loc billing.EndDate endDate) 0 1 0).Format }) }
          else .skip
        else .save { d with Status := "expired" }
      else .skip := by
  have he : billing.EndDate ≠ "" := by
    intro h
    rw [h, parseRFC3339_empty] at hp
    cases hp
  unfold cronStep
  simp only [hd, hb, hp, he, if_false]

theorem World.Save_cases (w : World) (db : Store) (x : Domain) :
    w.Save db x = (none, db.save (w.stamp x)) ∧ w.saveOk = true ∨
      w.Save db x = (some .saveFailed, db) ∧ w.saveOk = false := by
  unfold World.Save
  cases w.saveOk <;> simp

theorem reconcile_of_verified (loc : Location) (w : World) (now : Time) (x : Domain)
    (h : x.Status = "verified") :
    reconcile loc w now x = match cronStep loc now x with
      | .skip => x
      | .save d' => if w.saveOk = true then w.stamp d' else x := by
  unfold reconcile
  rw [if_pos h]

theorem reconcile_of_not_verified (loc : Location) (w : World) (now : Time) (x : Domain)
    (h : x.Status ≠ "verified") : reconcile loc w now x = x := by
  unfold reconcile
  rw [if_neg h]

theorem reconcile_cases (loc : Location) (w : World) (now : Time) (d : Domain) :
    reconcile loc w now d = d
      ∨ (∃ b, reconcile loc w now d = w.stamp { d with BillingData := some b })
      ∨ (d.Status = "verified" ∧
          reconcile loc w now d = w.stamp { d with Status := "expired" }) := by
  by_cases hs : d.Status = "verified"
  · rw [reconcile_of_verified loc w now d hs]
    rcases cronStep_cases loc now d with h | ⟨b, h⟩ | h
    · left; rw [h]
    · rw [h]
      by_cases hw : w.saveOk = true
      · right; left; exact ⟨b, by simp [hw]⟩
      · left; simp [hw]
    · rw [h]
      by_cases hw : w.saveOk = true
      · right; right; exact ⟨hs, by simp [hw]⟩
      · left; simp [hw]
  · left; exact reconcile_of_not_verified loc w now d hs

theorem reconcile_ID (loc : Location) (w : World) (now : Time) (d : Domain) :
    (reconcile loc w now d).ID = d.ID := by
  rcases reconcile_cases loc w now d with h | ⟨b, h⟩ | ⟨_, h⟩ <;> rw [h] <;> rfl

theorem GetDomainByID_reconcile (loc : Location) (findOk : Bool) (w : Nat → World)
    (now : Time) (db : Store) (id : Nat) (d : Domain) (h : GetDomainByID db id = .ok d) :
    GetDomainByID (CronJobForDomainStatus loc findOk w now db) id
      = .ok (if findOk = true then reconcile loc (w d.ID) now d else d) := by
  unfold CronJobForDomainStatus
  by_cases hf : findOk = true
  · rw [if_pos hf, if_pos hf]
    rw [GetDomainByID_ok] at h ⊢
    rw [find_map_keepID _ _ _ (fun x => reconcile_ID loc (w x.ID) now x), h]
    rfl
  · rw [if_neg hf, if_neg hf]
    exact h

/-! ## Lemmas on the billing codec -/

theorem Unmarshal_Marshal (b : BillingDataMod) : Unmarshal (Marshal b) = some b := by
  cases b
  rfl

/-- The renewal branch of the step: with auto-renewal set and a recognized cycle, an overdue
record is saved with the payload re-encoded around the advanced end date. -/
theorem cronStep_renew (loc : Location) (now : Time) (d : Domain) (data : JSON) (billing : BillingDataMod)
    (endDate : Time) (years months : Int) (hd : d.BillingData = some data)
    (hb : Unmarshal data = some billing)
    (hp : parseRFC3339 billing.EndDate = some endDate) (hn : now.After endDate = true)
    (ha : billing.AutoRenewal = "1") (hc : cycleOffset billing.Cycle = some (years, months)) :
    cronStep loc now d = .save { d with BillingData := some (Marshal { billing with
      EndDate := (endDate.AddDateIn loc (usesLocal loc billing.EndDate endDate) years months
        0).Format }) } ∧
    ((years = 1 ∧ months = 0) ∨ (years = 0 ∧ months = 1)) := by
  rw [cronStep_decoded loc now d data billing endDate hd hb hp, if_pos hn, if_pos ha]
  unfold cycleOffset at hc
  by_cases hy : billing.Cycle = "年"
  · rw [if_pos hy] at hc
    cases hc
    rw [if_pos hy]
    exact ⟨rfl, Or.inl ⟨rfl, rfl⟩⟩
  · rw [if_neg hy] at hc
    by_cases hm : billing.Cycle = "月"
    · rw [if_pos hm] at hc
      cases hc
      rw [if_neg hy, if_pos hm]
      exact ⟨rfl, Or.inr ⟨rfl, rfl⟩⟩
    · rw [if_neg hm] at hc
      cases hc

theorem cronStep_cases_marshal (loc : Location) (now : Time) (d : Domain) :
    cronStep loc now d = .skip
      ∨ (∃ b, cronStep loc now d = .save { d with BillingData := some (Marshal b) })
      ∨ cronStep loc now d = .save { d with Status := "expired" } := by
  unfold cronStep
  repeat' split
  all_goals simp

/-- The step skips a record whose end date, as the job reads it, is missing or not before
`now`. -/
theorem cronStep_skip_of_endDateOf (loc : Location) (now : Time) (d : Domain)
    (h : ∀ t, endDateOf d = some t → now.After t = false) : cronStep loc now d = .skip := by
  unfold cronStep
  split
  · rfl
  · rename_i data hd
    split
    · rfl
    · rename_i billing hb
      split
      · rfl
      · split
        · rfl
        · rename_i endDate hp
          have he : endDateOf d = some endDate := by
            unfold endDateOf billingOf
            rw [hd, Option.some_bind, hb, Option.some_bind, hp]
          rw [h endDate he]
          rfl

/-! ## Lemmas on the list response -/

theorem endDateOf_iff (d : Domain) (endDate : Time) :
    endDateOf d = some endDate ↔
      ∃ data billing, d.BillingData = some data ∧ Unmarshal data = some billing ∧
        billing.EndDate ≠ "" ∧ parseRFC3339 billing.EndDate = some endDate := by
  unfold endDateOf billingOf
  constructor
  · intro h
    cases hd : d.BillingData with
    | none => rw [hd] at h; cases h
    | some data =>
      rw [hd, Option.some_bind] at h
      cases hb : Unmarshal data with
      | none => rw [hb] at h; cases h
      | some billing =>
        rw [hb, Option.some_bind] at h
        refine ⟨data, billing, rfl, hb, ?_, h⟩
        intro he
        rw [he, parseRFC3339_empty] at h
        cases h
  · rintro ⟨data, billing, hd, hb, _, hp⟩
    rw [hd, Option.some_bind, hb, Option.some_bind, hp]

theorem apiResponse_endDate (now : Time) (d : Domain) (endDate : Time)
    (h : endDateOf d = some endDate) :
    (apiResponse now d).ExpiresInDays = some (wholeDays (endDate.Sub now)) := by
  obtain ⟨data, billing, hd, hb, he, hp⟩ := (endDateOf_iff d endDate).1 h
  unfold apiResponse
  simp only [hd, hb, he, hp, if_false]

theorem apiResponse_none (now : Time) (d : Domain) (h : endDateOf d = none) :
    (apiResponse now d).ExpiresInDays = none := by
  unfold apiResponse
  simp only
  split
  · rfl
  · rename_i data hd
    split
    · rfl
    · rename_i billing hb
      split
      · rfl
      · split
        · rfl
        · rename_i endDate hp
          unfold endDateOf billingOf at h
          rw [hd, Option.some_bind, hb, Option.some_bind, hp] at h
          cases h

theorem Time.Sub_eq (t u : Time) (hmin : -9223372036854775808 ≤ nanosUntil u t)
    (hmax : nanosUntil u t ≤ 9223372036854775807) : t.Sub u = nanosUntil u t := by
  unfold Time.Sub
  unfold nanosUntil at hmin hmax ⊢
  simp only
  rw [if_neg (by omega), if_neg (by omega)]

theorem floor_days (D : Int) :
    ⌊(D : ℚ) / 3600000000000 / 24⌋ = D / 86400000000000 := by
  have : (D : ℚ) / 3600000000000 / 24 = (D : ℚ) / ((86400000000000 : ℕ) : ℚ) := by
    rw [div_div]
    norm_num
  rw [this, Rat.floor_intCast_div_natCast]
  rfl

theorem ceil_days (D : Int) :
    ⌈(D : ℚ) / 3600000000000 / 24⌉ = -((-D) / 86400000000000) := by
  have : (D : ℚ) / 3600000000000 / 24 = -(((-D : Int) : ℚ) / 3600000000000 / 24) := by
    push_cast
    ring
  rw [this, Int.ceil_neg, floor_days]

/-- The days left attached to a record with a readable end date, when the time until the
end date fits a `Duration` and is not within the last 4096th of an hour before a whole
number of days: the whole days, truncated toward zero. -/
theorem apiResponse_days (now : Time) (d : Domain) (endDate : Time)
    (he : endDateOf d = some endDate)
    (hmin : -9223372036854775808 ≤ nanosUntil now endDate)
    (hmax : nanosUntil now endDate ≤ 9223372036854775807)
    (hb : ((nanosUntil now endDate).natAbs : Int) % 86400000000000 ≤ 86399121093750) :
    (apiResponse now d).ExpiresInDays
      = some ((nanosUntil now endDate).tdiv 86400000000000) := by
  rw [apiResponse_endDate now d endDate he, Time.Sub_eq _ _ hmin hmax,
    wholeDays_eq _ hmin hmax hb]

/-! ## Lemmas on the zone of a parsed end date -/

theorem get_set (b : BillingDataMod) (g f : Field) (s : String) :
    (b.set g s).get f = if g = f then s else b.get f := by
  cases g <;> cases f <;> rfl

theorem decodeMembers_get (f : Field) (ms : List (String × JSONValue)) :
    ∀ b b' : BillingDataMod, decodeMembers ms b = some b' →
      b'.get f = memberValue f ms (b.get f) := by
  induction ms with
  | nil =>
    intro b b' h
    simp only [decodeMembers, Option.some.injEq] at h
    rw [← h]
    rfl
  | cons kv rest ih =>
    intro b b' h
    obtain ⟨key, v⟩ := kv
    unfold decodeMembers at h
    cases hk : fieldOf key with
    | none =>
      rw [hk] at h
      simp only at h
      rw [ih b b' h]
      cases v <;> simp [memberValue, hk]
    | some g =>
      rw [hk] at h
      cases v with
      | string s =>
        simp only at h
        rw [ih _ b' h, get_set]
        simp only [memberValue, hk, Option.some.injEq]
        by_cases hgf : g = f
        · rw [if_pos hgf, if_pos hgf]
        · rw [if_neg hgf, if_neg hgf]
      | null =>
        simp only at h
        rw [ih b b' h]
        simp [memberValue]
      | bool x => simp at h
      | number x => simp at h
      | array x => simp at h
      | object x => simp at h

/-- The fields decoded from a payload are the strings its members give them. -/
theorem Unmarshal_get (data : JSON) (billing : BillingDataMod) (f : Field)
    (h : Unmarshal data = some billing) : billing.get f = memberValue f data.members "" := by
  cases data with
  | invalid => cases h
  | value v =>
    cases v with
    | null =>
      simp only [Unmarshal, Option.some.injEq] at h
      rw [← h]
      cases f <;> rfl
    | object ms =>
      have := decodeMembers_get f ms BillingDataMod.zero billing h
      rw [this]
      cases f <;> rfl
    | bool x => cases h
    | number x => cases h
    | string x => cases h
    | array x => cases h

/-! ## The claims -/

/-- C2 as stated fails in the field `UpdatedAt`: the write of the expired record stamps it
with the time of the save. -/
theorem C2_counterexample :
    (reconcile Location.utc (publishedWorld true) ⟨1704153600, 0, 0⟩ expiringRecord).Status
        = "expired" ∧
      (reconcile Location.utc (publishedWorld true) ⟨1704153600, 0, 0⟩ expiringRecord).UpdatedAt
        = ⟨1717200001, 0, 0⟩ ∧
      expiringRecord.UpdatedAt = ⟨1700000000, 0, 0⟩ := by
  decide

/-- C2, amended. Expiry: for a verified record whose billing payload decodes with an end
date that parses as RFC3339, overdue at `now`, and whose auto-renewal flag is not set
(`AutoRenewal` is not `"1"`), the step hands to `DB.Save` the record with status `expired`
and every other field as loaded. When the write succeeds the stored record is that record
with `UpdatedAt` stamped by the store, so the billing payload and every field other than
`Status` and `UpdatedAt` are unchanged; when the write fails the stored record is
unchanged. -/
theorem C2_expiry (loc : Location) (w : World) (now : Time) (d : Domain) (data : JSON)
    (billing : BillingDataMod) (endDate : Time) (hs : d.Status = "verified")
    (hd : d.BillingData = some data) (hb : Unmarshal data = some billing)
    (hp : parseRFC3339 billing.EndDate = some endDate) (hn : now.After endDate = true)
    (ha : billing.AutoRenewal ≠ "1") :
    cronStep loc now d = .save { d with Status := "expired" } ∧
      (w.saveOk = true →
        reconcile loc w now d = { d with Status := "expired", UpdatedAt := w.savedAt }) ∧
      (w.saveOk = false → reconcile loc w now d = d) ∧
      (reconcile loc w now d).BillingData = d.BillingData ∧
      (reconcile loc w now d).ID = d.ID ∧ (reconcile loc w now d).Domain = d.Domain ∧
      (reconcile loc w now d).VerifyToken = d.VerifyToken ∧
      (reconcile loc w now d).IsPublic = d.IsPublic ∧
      (reconcile loc w now d).CreatedAt = d.CreatedAt := by
  have h : cronStep loc now d = .save { d with Status := "expired" } := by
    rw [cronStep_decoded loc now d data billing endDate hd hb hp]
    simp only [hn, ha, if_true, if_false]
  have h2 : reconcile loc w now d
      = if w.saveOk = true then w.stamp { d with Status := "expired" } else d := by
    rw [reconcile_of_verified loc w now d hs, h]
  refine ⟨h, ?_, ?_, ?_⟩
  · intro hw
    rw [h2, if_pos hw]
    rfl
  · intro hw
    rw [h2, hw]
    rfl
  · rw [h2]
    cases w.saveOk
    · exact ⟨rfl, rfl, rfl, rfl, rfl, rfl⟩
    · exact ⟨rfl, rfl, rfl, rfl, rfl, rfl⟩

theorem C2_expiry_witness :
    reconcile Location.utc (publishedWorld true) ⟨1704153600, 0, 0⟩ expiringRecord
      = { expiringRecord with Status := "expired", UpdatedAt := ⟨1717200001, 0, 0⟩ } :=
  (C2_expiry Location.utc (publishedWorld true) ⟨1704153600, 0, 0⟩ expiringRecord _
    ⟨"R", "", "2024-01-01T00:00:00Z", "", "0", "", "", ""⟩ ⟨1704067200, 0, 0⟩ rfl rfl rfl
    (by decide) (by decide) (by decide)).2.1 rfl

/-- C5. No-action cases: the step neither changes nor saves the record when (a) the billing
payload is nil, or it decodes and its end date is empty or does not parse as RFC3339, or
(b) the end date parses and `now` is not after it, or (c) the record is overdue with
auto-renewal set and a cycle that is neither the yearly nor the monthly value. -/
theorem C5_no_action (loc : Location) (w : World) (now : Time) (d : Domain)
    (h : (d.BillingData = none ∨
          ∃ data billing, d.BillingData = some data ∧ Unmarshal data = some billing ∧
            (billing.EndDate = "" ∨ parseRFC3339 billing.EndDate = none)) ∨
        (∃ data billing endDate, d.BillingData = some data ∧ Unmarshal data = some billing ∧
            parseRFC3339 billing.EndDate = some endDate ∧ now.After endDate = false) ∨
        (∃ data billing endDate, d.BillingData = some data ∧ Unmarshal data = some billing ∧
            parseRFC3339 billing.EndDate = some endDate ∧ now.After endDate = true ∧
            billing.AutoRenewal = "1" ∧ billing.Cycle ≠ "年" ∧ billing.Cycle ≠ "月")) :
    cronStep loc now d = .skip ∧ reconcile loc w now d = d := by
  have key : cronStep loc now d = .skip := by
    rcases h with (h | ⟨data, billing, hd, hb, he | hp⟩) | ⟨data, billing, endDate, hd, hb, hp, hn⟩
      | ⟨data, billing, endDate, hd, hb, hp, hn, ha, hy, hm⟩
    · unfold cronStep
      simp only [h]
    · unfold cronStep
      simp only [hd, hb, he, if_true]
    · unfold cronStep
      simp only [hd, hb, hp]
      split <;> rfl
    · rw [cronStep_decoded loc now d data billing endDate hd hb hp]
      simp [hn]
    · rw [cronStep_decoded loc now d data billing endDate hd hb hp]
      simp only [hn, ha, hy, hm, if_true, if_false]
  refine ⟨key, ?_⟩
  unfold reconcile
  rw [key]
  split <;> rfl

theorem C5_no_action_witness :
    cronStep Location.utc ⟨1704153600, 0, 0⟩ unknownCycleRecord = .skip ∧
      reconcile Location.utc (publishedWorld true) ⟨1704153600, 0, 0⟩ unknownCycleRecord
        = unknownCycleRecord :=
  C5_no_action Location.utc (publishedWorld true) ⟨1704153600, 0, 0⟩ unknownCycleRecord
    (Or.inr (Or.inr ⟨_, ⟨"", "", "2024-01-01T00:00:00Z", "", "1", "", "weekly", ""⟩,
      ⟨1704067200, 0, 0⟩, rfl, rfl, by decide, by decide, by decide, by decide, by decide⟩))

/-- C7. Verification failure modes, for a stored record whose status is not `verified`: when
the TXT lookup fails with a DNS error flagged not-found, `VerifyDomain` returns
`(false, nil)`; when it fails with any other error, `VerifyDomain` returns `false` with a
non-nil error; in both cases the table is left as it was. -/
theorem C7_verify_failure (w : World) (db : Store) (id : Nat) (d : Domain) (e : LookupError)
    (hg : GetDomainByID db id = .ok d) (hs : d.Status ≠ "verified")
    (hl : w.LookupTXT d.Domain = .error e) :
    (e = .dns true → (VerifyDomain w db id).1 = (false, none)) ∧
      (e ≠ .dns true → ∃ err, (VerifyDomain w db id).1 = (false, some err)) ∧
      (VerifyDomain w db id).2.db = db ∧
      GetDomainByID (VerifyDomain w db id).2.db id = .ok d := by
  unfold VerifyDomain
  simp only [hg, hs, if_false]
  cases e with
  | dns nf =>
    cases nf
    · rw [hl]
      exact ⟨(by intro h; cases h), fun _ => ⟨_, rfl⟩, rfl, hg⟩
    · rw [hl]
      exact ⟨fun _ => rfl, fun h => absurd rfl h, rfl, hg⟩
  | other =>
    rw [hl]
    exact ⟨(by intro h; cases h), fun _ => ⟨_, rfl⟩, rfl, hg⟩

theorem C7_verify_failure_witness :
    ∃ err, (VerifyDomain timeoutWorld [pendingRecord] 7).1 = (false, some err) :=
  (C7_verify_failure timeoutWorld [pendingRecord] 7 pendingRecord (.dns false) rfl (by decide)
    rfl).2.1 (by decide)

/-- C6 as stated fails when the write fails: the token is published, `VerifyDomain` returns
`true` (together with the error of `DB.Save`), and the stored status is still `pending`. -/
theorem C6_counterexample :
    (VerifyDomain (publishedWorld false) [pendingRecord] 7).1.1 = true ∧
      GetDomainByID (VerifyDomain (publishedWorld false) [pendingRecord] 7).2.db 7
        = .ok pendingRecord ∧
      pendingRecord.Status ≠ "verified" := by
  refine ⟨rfl, rfl, by decide⟩

/-- C6, amended. For a stored record and a successful TXT lookup: `VerifyDomain` returns
`true` exactly when the status was already `verified` or some TXT value equals the
`VerifyToken`; when it returns `true` and no error, the stored status is `verified`; when it
returns `true` with an error, the write failed and the table is unchanged; when it returns
`false`, the table is unchanged; and when the status was already `verified`, the result is
`(true, nil)` in every world, with no lookup made and the table unchanged. -/
theorem C6_verify_outcome (w : World) (db : Store) (id : Nat) (d : Domain)
    (txts : List String) (hg : GetDomainByID db id = .ok d)
    (hl : w.LookupTXT d.Domain = .ok txts) :
    ((VerifyDomain w db id).1.1 = true ↔ (d.Status = "verified" ∨ d.VerifyToken ∈ txts)) ∧
      ((VerifyDomain w db id).1 = (true, none) →
        ∃ d', GetDomainByID (VerifyDomain w db id).2.db id = .ok d' ∧ d'.Status = "verified") ∧
      (∀ err, (VerifyDomain w db id).1 = (true, some err) →
        w.saveOk = false ∧ d.VerifyToken ∈ txts ∧ (VerifyDomain w db id).2.db = db ∧
          GetDomainByID (VerifyDomain w db id).2.db id = .ok d) ∧
      ((VerifyDomain w db id).1.1 = false → (VerifyDomain w db id).2.db = db) ∧
      (d.Status = "verified" →
        ∀ w' : World, VerifyDomain w' db id = ((true, none), ⟨db, []⟩)) := by
  have hlast : d.Status = "verified" →
      ∀ w' : World, VerifyDomain w' db id = ((true, none), ⟨db, []⟩) := by
    intro hs w'
    unfold VerifyDomain
    simp only [hg, hs, if_true]
  by_cases hs : d.Status = "verified"
  · rw [hlast hs w]
    exact ⟨⟨fun _ => Or.inl hs, fun _ => rfl⟩, fun _ => ⟨d, hg, hs⟩,
      fun err h => (by cases h), fun _ => rfl, hlast⟩
  · by_cases hm : d.VerifyToken ∈ txts
    · have hany : txts.any (fun record => decide (record = d.VerifyToken)) = true := by
        rw [List.any_eq_true]
        exact ⟨_, hm, by simp⟩
      have hv : VerifyDomain w db id =
          ((true, (w.Save db { d with Status := "verified" }).1),
            ⟨(w.Save db { d with Status := "verified" }).2, [d.Domain]⟩) := by
        unfold VerifyDomain
        simp only [hg, hs, hl, hany, if_true, if_false]
      rw [hv]
      refine ⟨⟨fun _ => Or.inr hm, fun _ => rfl⟩, ?_, ?_, (by intro h; cases h), hlast⟩
      · intro hr
        rcases World.Save_cases w db { d with Status := "verified" } with ⟨h, _⟩ | ⟨h, _⟩
        · rw [h]
          refine ⟨w.stamp { d with Status := "verified" }, ?_, rfl⟩
          rw [GetDomainByID_save db id d _ hg,
            if_pos (show d.ID = (w.stamp { d with Status := "verified" }).ID from rfl)]
        · rw [h] at hr
          cases hr
      · intro err hr
        rcases World.Save_cases w db { d with Status := "verified" } with ⟨h, _⟩ | ⟨h, hw⟩
        · rw [h] at hr
          cases hr
        · rw [h]
          exact ⟨hw, hm, rfl, hg⟩
    · have hany : txts.any (fun record => decide (record = d.VerifyToken)) = false := by
        rw [Bool.eq_false_iff]
        intro h
        rw [List.any_eq_true] at h
        obtain ⟨x, hx, hx'⟩ := h
        have : x = d.VerifyToken := by simpa using hx'
        exact hm (this ▸ hx)
      have hv : VerifyDomain w db id = ((false, none), ⟨db, [d.Domain]⟩) := by
        unfold VerifyDomain
        simp only [hg, hs, hl, hany, if_false]
        rfl
      rw [hv]
      refine ⟨⟨(by intro h; cases h), ?_⟩, (by intro h; cases h), (by intro err h; cases h),
        fun _ => rfl, hlast⟩
      rintro (h | h)
      · exact absurd h hs
      · exact absurd h hm

theorem C6_verify_outcome_witness :
    ∃ d', GetDomainByID (VerifyDomain (publishedWorld true) [pendingRecord] 7).2.db 7
      = .ok d' ∧ d'.Status = "verified" :=
  (C6_verify_outcome (publishedWorld true) [pendingRecord] 7 pendingRecord
    ["foo", "nezha-verify-abc123"] rfl rfl).2.1 rfl

/-- C9. Status invariant. For any operation of the service (`VerifyDomain`, `UpdateDomain`,
`UpdateDomainConfig`, a run of `CronJobForDomainStatus`) and any record stored before and
after it: the status does not go from `verified` to `pending`, and if it goes from a value
other than `verified` to `verified`, the operation is a `VerifyDomain` of that record whose
TXT lookup succeeded and returned a value equal to the record's `VerifyToken`. -/
theorem C9_status_invariant (op : Op) (db : Store) (id : Nat) (d d' : Domain)
    (hg : GetDomainByID db id = .ok d) (hg' : GetDomainByID (op.run db) id = .ok d') :
    (d.Status = "verified" → d'.Status ≠ "pending") ∧
      (d.Status ≠ "verified" → d'.Status = "verified" →
        ∃ w txts, op = .verify w id ∧ w.LookupTXT d.Domain = .ok txts ∧
          d.VerifyToken ∈ txts) := by
  have same : d' = d → (d.Status = "verified" → d'.Status ≠ "pending") ∧
      (d.Status ≠ "verified" → d'.Status = "verified" →
        ∃ w txts, op = .verify w id ∧ w.LookupTXT d.Domain = .ok txts ∧
          d.VerifyToken ∈ txts) := by
    intro h
    subst h
    exact ⟨fun h1 h2 => by rw [h1] at h2; exact absurd h2 (by decide),
      fun h1 h2 => absurd h2 h1⟩
  have keep : d'.Status = d.Status → (d.Status = "verified" → d'.Status ≠ "pending") ∧
      (d.Status ≠ "verified" → d'.Status = "verified" →
        ∃ w txts, op = .verify w id ∧ w.LookupTXT d.Domain = .ok txts ∧
          d.VerifyToken ∈ txts) := by
    intro h
    rw [h]
    exact ⟨fun h1 h2 => by rw [h1] at h2; exact absurd h2 (by decide),
      fun h1 h2 => absurd h2 h1⟩
  cases op with
  | verify w id2 =>
    simp only [Op.run] at hg'
    unfold VerifyDomain at hg'
    cases hx : GetDomainByID db id2 with
    | error err =>
      rw [hx] at hg'
      exact same (by rw [hg] at hg'; cases hg'; rfl)
    | ok x =>
      rw [hx] at hg'
      by_cases hs : x.Status = "verified"
      · simp only [hs, if_true] at hg'
        exact same (by rw [hg] at hg'; cases hg'; rfl)
      · simp only [hs, if_false] at hg'
        cases hl : w.LookupTXT x.Domain with
        | error e =>
          rw [hl] at hg'
          cases e with
          | dns nf =>
            cases nf <;> exact same (by rw [hg] at hg'; cases hg'; rfl)
          | other => exact same (by rw [hg] at hg'; cases hg'; rfl)
        | ok txts =>
          rw [hl] at hg'
          by_cases hany : txts.any (fun record => decide (record = x.VerifyToken)) = true
          · simp only [hany, if_true] at hg'
            rcases World.Save_cases w db { x with Status := "verified" } with ⟨h, _⟩ | ⟨h, _⟩
            · rw [h] at hg'
              rcases after_save db id d _ d' hg hg' with h1 | ⟨h1, h2⟩
              · exact same h1
              · have hxid : x.ID = id2 := find_ID db id2 x ((GetDomainByID_ok db id2 x).1 hx)
                have hid : id2 = id := by rw [← hxid]; exact h2
                subst hid
                have hxd : x = d := by rw [hx] at hg; cases hg; rfl
                subst hxd
                refine ⟨fun h1 => absurd h1 hs, fun _ _ => ⟨w, txts, rfl, hl, ?_⟩⟩
                rw [List.any_eq_true] at hany
                obtain ⟨y, hy, hy'⟩ := hany
                have : y = x.VerifyToken := by simpa using hy'
                exact this ▸ hy
            · rw [h] at hg'
              exact same (by rw [hg] at hg'; cases hg'; rfl)
          · have hany' : txts.any (fun record => decide (record = x.VerifyToken)) = false :=
              Bool.eq_false_iff.2 hany
            simp only [hany'] at hg'
            exact same (by rw [if_neg (by decide), hg] at hg'; cases hg'; rfl)
  | update w id2 req =>
    simp only [Op.run] at hg'
    unfold UpdateDomain at hg'
    cases hx : GetDomainByID db id2 with
    | error err =>
      rw [hx] at hg'
      exact same (by rw [hg] at hg'; cases hg'; rfl)
    | ok x =>
      rw [hx] at hg'
      rcases World.Save_cases w db
        { x with IsPublic := req.IsPublic, BillingData := req.BillingData } with ⟨h, _⟩ | ⟨h, _⟩
      · simp only [h] at hg'
        rcases after_save db id d _ d' hg hg' with h1 | ⟨h1, h2⟩
        · exact same h1
        · have hxid : x.ID = id2 := find_ID db id2 x ((GetDomainByID_ok db id2 x).1 hx)
          have hid : id2 = id := by rw [← hxid]; exact h2
          subst hid
          have hxd : x = d := by rw [hx] at hg; cases hg; rfl
          subst hxd
          exact keep (by rw [h1]; rfl)
      · simp only [h] at hg'
        exact same (by rw [hg] at hg'; cases hg'; rfl)
  | updateConfig w id2 billingData =>
    simp only [Op.run] at hg'
    unfold UpdateDomainConfig at hg'
    cases hx : GetDomainByID db id2 with
    | error err =>
      rw [hx] at hg'
      exact same (by rw [hg] at hg'; cases hg'; rfl)
    | ok x =>
      rw [hx] at hg'
      rcases World.Save_cases w db { x with BillingData := billingData } with ⟨h, _⟩ | ⟨h, _⟩
      · simp only [h] at hg'
        rcases after_save db id d _ d' hg hg' with h1 | ⟨h1, h2⟩
        · exact same h1
        · have hxid : x.ID = id2 := find_ID db id2 x ((GetDomainByID_ok db id2 x).1 hx)
          have hid : id2 = id := by rw [← hxid]; exact h2
          subst hid
          have hxd : x = d := by rw [hx] at hg; cases hg; rfl
          subst hxd
          exact keep (by rw [h1]; rfl)
      · simp only [h] at hg'
        exact same (by rw [hg] at hg'; cases hg'; rfl)
  | cron loc findOk w now =>
    simp only [Op.run] at hg'
    rw [GetDomainByID_reconcile loc findOk w now db id d hg] at hg'
    by_cases hf : findOk = true
    · rw [if_pos hf] at hg'
      have hd' : d' = reconcile loc (w d.ID) now d := by cases hg'; rfl
      rcases reconcile_cases loc (w d.ID) now d with h | ⟨b, h⟩ | ⟨hv, h⟩
      · exact same (by rw [hd', h])
      · exact keep (by rw [hd', h]; rfl)
      · rw [hd', h]
        exact ⟨fun _ => (by show "expired" ≠ "pending"; decide), fun h1 _ => absurd hv h1⟩
    · rw [if_neg hf] at hg'
      exact same (by cases hg'; rfl)

theorem C9_status_invariant_witness :
    ∃ w txts, Op.verify (publishedWorld true) 7 = .verify w 7 ∧
      w.LookupTXT pendingRecord.Domain = .ok txts ∧ pendingRecord.VerifyToken ∈ txts :=
  (C9_status_invariant (.verify (publishedWorld true) 7) [pendingRecord] 7 pendingRecord
    ((publishedWorld true).stamp { pendingRecord with Status := "verified" }) rfl rfl).2
    (by decide) rfl

/-- C4 as stated fails for a key the decoder does not know: it is in the payload before the
renewal and not in the payload written back. -/
theorem C4_counterexample :
    "registrarUrl" ∈ extraKeyRecord.keys ∧
      "registrarUrl" ∉ (reconcile Location.utc (publishedWorld true) june2024
        extraKeyRecord).keys ∧
      (reconcile Location.utc (publishedWorld true) june2024 extraKeyRecord).keys
        = ["registrar", "registeredDate", "endDate", "renewalPrice", "autoRenewal", "notes",
            "cycle", "amount"] := by
  decide

/-- C4, amended. For a verified record that the step renews, the payload written back is the
encoding of the eight fields of `BillingDataMod`, and it decodes again. Every field other
than the end date has the value the decoder read from the members of the original payload:
the string of the last member whose key matches the field name up to case, the empty string
when there is no such member or it is `null`. The record handed to the store differs from
the old one in the payload only; the record stored after a successful write differs from the
old one in the payload and in `UpdatedAt`, which the store sets; after a failed write the
stored record is the old one. -/
theorem C4_renewal_frame (loc : Location) (w : World) (now : Time) (d : Domain) (data : JSON)
    (billing : BillingDataMod) (endDate : Time) (hs : d.Status = "verified")
    (hd : d.BillingData = some data) (hb : Unmarshal data = some billing)
    (hp : parseRFC3339 billing.EndDate = some endDate) (hn : now.After endDate = true)
    (ha : billing.AutoRenewal = "1") (hc : billing.Cycle = "年" ∨ billing.Cycle = "月") :
    ∃ d' billing', cronStep loc now d = .save d' ∧ d'.BillingData = some (Marshal billing') ∧
      billingOf d' = some billing' ∧
      (∀ f : Field, f ≠ .endDate →
        billing'.get f = billing.get f ∧ billing'.get f = memberValue f data.members "") ∧
      d'.keys = Field.all.map Field.tag ∧
      d' = { d with BillingData := d'.BillingData } ∧
      (w.saveOk = true → reconcile loc w now d
        = { d with BillingData := d'.BillingData, UpdatedAt := w.savedAt }) ∧
      (w.saveOk = false → reconcile loc w now d = d) := by
  have hco : ∃ years months, cycleOffset billing.Cycle = some (years, months) := by
    unfold cycleOffset
    rcases hc with h | h
    · exact ⟨1, 0, by rw [if_pos h]⟩
    · exact ⟨0, 1, by rw [h, if_neg (by decide), if_pos rfl]⟩
  obtain ⟨years, months, hco⟩ := hco
  obtain ⟨hstep, _⟩ :=
    cronStep_renew loc now d data billing endDate years months hd hb hp hn ha hco
  have hr := reconcile_of_verified loc w now d hs
  rw [hstep] at hr
  refine ⟨{ d with BillingData := some (Marshal { billing with
      EndDate := (endDate.AddDateIn loc (usesLocal loc billing.EndDate endDate) years months
        0).Format }) },
    { billing with EndDate := (endDate.AddDateIn loc (usesLocal loc billing.EndDate endDate)
      years months 0).Format },
    hstep, rfl, ?_, ?_, ?_, rfl, ?_, ?_⟩
  · show (some (Marshal _)).bind Unmarshal = _
    rw [Option.some_bind, Unmarshal_Marshal]
  · intro f hf
    have hg : BillingDataMod.get { billing with EndDate := (endDate.AddDateIn loc
        (usesLocal loc billing.EndDate endDate) years months 0).Format } f = billing.get f := by
      cases f <;> first | exact absurd rfl hf | simp only [BillingDataMod.get]
    exact ⟨hg, hg.trans (Unmarshal_get data billing f hb)⟩
  · simp only [Domain.keys, JSON.members, Marshal, List.map_map]
    rfl
  · intro hw
    rw [hr]
    simp only [hw, if_true]
    rfl
  · intro hw
    rw [hr]
    simp [hw]

theorem C4_renewal_frame_witness :
    ∃ d' billing', cronStep Location.utc june2024 renewingRecord = .save d' ∧
      d'.BillingData = some (Marshal billing') ∧ billingOf d' = some billing' ∧
      (∀ f : Field, f ≠ .endDate → billing'.get f
        = memberValue f [("registrar", .string "R"),
            ("endDate", .string "2024-01-15T08:30:00+08:00"), ("autoRenewal", .string "1"),
            ("cycle", .string "年"), ("amount", .string "12.50")] "") ∧
      d'.keys = Field.all.map Field.tag ∧
      reconcile Location.utc (publishedWorld true) june2024 renewingRecord
        = { renewingRecord with
            BillingData := d'.BillingData, UpdatedAt := ⟨1717200001, 0, 0⟩ } := by
  obtain ⟨d', billing', h1, h2, h3, h4, h5, _, h7, _⟩ :=
    C4_renewal_frame Location.utc (publishedWorld true) june2024 renewingRecord _ ⟨"R", "",
      "2024-01-15T08:30:00+08:00", "", "1", "", "年", "12.50"⟩ ⟨1705278600, 0, 28800⟩ rfl rfl rfl
      (by decide) (by decide) rfl (Or.inl rfl)
  exact ⟨d', billing', h1, h2, h3, fun f hf => (h4 f hf).2, h5, h7 rfl⟩

/-- C3 as stated fails for a record overdue by more than one cycle: the first run renews it
to 2021, and a second run at the same `now` renews it again, to 2022. -/
theorem C3_counterexample :
    (billingOf longOverdueRecord).map (fun b => b.EndDate) = some "2020-01-01T00:00:00Z" ∧
      (billingOf (reconcile Location.utc (publishedWorld true) june2024
        longOverdueRecord)).map (fun b => b.EndDate) = some "2021-01-01T00:00:00Z" ∧
      (billingOf (reconcile Location.utc (publishedWorld true) june2024
        (reconcile Location.utc (publishedWorld true) june2024 longOverdueRecord))).map
        (fun b => b.EndDate) = some "2022-01-01T00:00:00Z" := by
  decide

/-- C3, amended. If a run at `now` changes a verified record, and either it expired the
record or `now` is not after the end date the renewal wrote, then a second run at the same
`now` leaves the record as the first run produced it, and saves nothing (whether or not the
store would accept a write in the second run). -/
theorem C3_idempotent (loc : Location) (w w' : World) (now : Time) (d : Domain)
    (hs : d.Status = "verified") (ht : reconcile loc w now d ≠ d)
    (hc : (reconcile loc w now d).Status = "verified" →
      ∀ t, endDateOf (reconcile loc w now d) = some t → now.After t = false) :
    reconcile loc w' now (reconcile loc w now d) = reconcile loc w now d ∧
      ((reconcile loc w now d).Status = "verified" →
        cronStep loc now (reconcile loc w now d) = .skip) := by
  have hr := reconcile_of_verified loc w now d hs
  have hw : w.saveOk = true := by
    by_contra hw
    rcases cronStep_cases_marshal loc now d with h | ⟨b, h⟩ | h <;> rw [h] at hr <;>
      simp only [hw, if_false] at hr <;> exact ht hr
  rcases cronStep_cases_marshal loc now d with h | ⟨b, h⟩ | h
  · rw [h] at hr
    exact absurd hr ht
  · rw [h] at hr
    simp only [hw, if_true] at hr
    have hv : (reconcile loc w now d).Status = "verified" := by rw [hr]; exact hs
    have hskip := cronStep_skip_of_endDateOf loc now (reconcile loc w now d) (hc hv)
    refine ⟨?_, fun _ => hskip⟩
    rw [reconcile_of_verified loc w' now _ hv, hskip]
  · rw [h] at hr
    simp only [hw, if_true] at hr
    have hv : (reconcile loc w now d).Status ≠ "verified" := by
      rw [hr]
      show "expired" ≠ "verified"
      decide
    exact ⟨reconcile_of_not_verified loc w' now _ hv, fun h' => absurd h' hv⟩

theorem C3_idempotent_witness :
    reconcile Location.utc (publishedWorld false) june2024
        (reconcile Location.utc (publishedWorld true) june2024 renewingRecord)
      = reconcile Location.utc (publishedWorld true) june2024 renewingRecord :=
  And.left <| C3_idempotent Location.utc (publishedWorld true) (publishedWorld false) june2024
    renewingRecord rfl
    (fun h => absurd (congrArg (fun r => (billingOf r).map fun b => b.EndDate) h) (by decide))
    (fun _ t h => by
      have e : endDateOf (reconcile Location.utc (publishedWorld true) june2024 renewingRecord)
          = some ⟨1736901000, 0, 28800⟩ := by
        decide
      rw [e] at h
      cases h
      decide)

/-- C8 as stated fails for an end date in the past: one hour after the end date the field
is 0, and the floor of the hours until the end date divided by 24 is -1. -/
theorem C8_counterexample :
    endDateOf hourAgoRecord = some ⟨1717196400, 0, 0⟩ ∧
      (apiResponse june2024 hourAgoRecord).ExpiresInDays = some 0 ∧
      specExpiresInDays june2024 ⟨1717196400, 0, 0⟩ = -1 := by
  have he : endDateOf hourAgoRecord = some ⟨1717196400, 0, 0⟩ := by decide
  refine ⟨he, ?_, ?_⟩
  · rw [apiResponse_days june2024 hourAgoRecord _ he (by decide) (by decide) (by decide)]
    decide
  · unfold specExpiresInDays hoursUntil
    rw [floor_days]
    decide

/-- C8, amended. The field `ExpiresInDays` is attached exactly when the billing payload is
present, decodes, and has a non-empty end date that parses as RFC3339. Its value is
`int(time.Until(endDate).Hours() / 24)`: when the time until the end date fits a `Duration`
and is not within the last 4096th of an hour before a whole number of days, this is the
number of whole days truncated toward zero, which is the floor of the hours until the end
date divided by 24 for an end date not in the past, and the ceiling of it for an end date in
the past. -/
theorem C8_expires_in_days (now : Time) (d : Domain) (endDate : Time)
    (he : endDateOf d = some endDate)
    (hmin : -9223372036854775808 ≤ nanosUntil now endDate)
    (hmax : nanosUntil now endDate ≤ 9223372036854775807)
    (hb : ((nanosUntil now endDate).natAbs : Int) % 86400000000000 ≤ 86399121093750) :
    (∀ x : Domain, (apiResponse now x).ExpiresInDays ≠ none ↔
      ∃ data billing t, x.BillingData = some data ∧ Unmarshal data = some billing ∧
        billing.EndDate ≠ "" ∧ parseRFC3339 billing.EndDate = some t) ∧
      (apiResponse now d).ExpiresInDays = some (wholeDays (endDate.Sub now)) ∧
      (apiResponse now d).ExpiresInDays
        = some ((nanosUntil now endDate).tdiv 86400000000000) ∧
      (0 ≤ nanosUntil now endDate →
        (apiResponse now d).ExpiresInDays = some ⌊hoursUntil now endDate / 24⌋) ∧
      (nanosUntil now endDate < 0 →
        (apiResponse now d).ExpiresInDays = some ⌈hoursUntil now endDate / 24⌉) := by
  have hv := apiResponse_days now d endDate he hmin hmax hb
  refine ⟨?_, apiResponse_endDate now d endDate he, hv, ?_, ?_⟩
  · intro x
    constructor
    · intro hx
      cases hx' : endDateOf x with
      | none => exact absurd (apiResponse_none now x hx') hx
      | some t =>
        obtain ⟨data, billing, h1, h2, h3, h4⟩ := (endDateOf_iff x t).1 hx'
        exact ⟨data, billing, t, h1, h2, h3, h4⟩
    · rintro ⟨data, billing, t, h1, h2, h3, h4⟩
      rw [apiResponse_endDate now x t ((endDateOf_iff x t).2 ⟨data, billing, h1, h2, h3, h4⟩)]
      exact Option.some_ne_none _
  · intro h0
    rw [hv, hoursUntil, floor_days, Int.tdiv_eq_ediv h0 (by decide)]
  · intro h0
    rw [hv, hoursUntil, ceil_days]
    have hd : nanosUntil now endDate = -(-nanosUntil now endDate) := by omega
    conv_lhs => rw [hd, Int.neg_tdiv, Int.tdiv_eq_ediv (by omega) (by decide)]

theorem C8_expires_in_days_witness :
    (apiResponse june2024Nanos nextMonthRecord).ExpiresInDays = some 30 :=
  (C8_expires_in_days june2024Nanos nextMonthRecord ⟨1719835200, 0, 0⟩ (by decide) (by decide)
    (by decide) (by decide)).2.2.1.trans (by decide)

end Nezha
